import Mathlib

/-!
Verification development for a distributed substring-occurrence counting
service: a worker exposing three exact string matchers (`src/worker/app.py`)
and a coordinator that partitions a corpus, dispatches batches to workers and
aggregates per-file hit counts (`src/coordinator/app.py`).

Texts are embedded as `List Char`, file identifiers as `String`, machine
integers as `Nat`/`Int` (Python integers are unbounded, so no wrap-around is
involved).
-/

/-- `brute_force` from `src/worker/app.py` (lines 35-44): for every start
offset `i` in `range(n - m + 1)` count the offsets where the slice
`text[i : i + m]` equals `pattern`; returns 0 for an empty pattern.
Python's `range(n - m + 1)` is empty when `m > n`, which in `Nat` is exactly
`List.range (n + 1 - m)`. -/
def brute_force (text pattern : List Char) : Nat :=
  if pattern = [] then 0
  else
    (List.range (text.length + 1 - pattern.length)).countP
      (fun i => decide ((text.drop i).take pattern.length = pattern))

/-- Accumulator loop for the `last` table of `boyer_moore`:
`{ch: idx for idx, ch in enumerate(pattern)}` keeps, for each character, the
last index at which it occurs. -/
def lastOccAux (c : Char) : List Char → Nat → Int → Int
  | [], _, acc => acc
  | x :: xs, idx, acc => lastOccAux c xs (idx + 1) (if x = c then (idx : Int) else acc)

/-- `last.get(c, -1)` of `boyer_moore`: the last index at which `c` occurs in
`pattern`, `-1` when `c` does not occur. -/
def lastOcc (pattern : List Char) (c : Char) : Int :=
  lastOccAux c pattern 0 (-1)

/-- Inner right-to-left comparison loop of `boyer_moore`
(`while k >= 0 and text[j] == pattern[k]: j -= 1; k -= 1`), started at
`j = i`, `k = m - 1`.  Returns `none` when `k` runs below 0 (full match at
the current alignment) and `some k` for the first mismatching pattern
index `k`. -/
def bmMismatch (text pattern : List Char) : Nat → Nat → Option Nat
  | j, 0 => if text.getD j default = pattern.getD 0 default then none else some 0
  | j, k + 1 =>
    if text.getD j default = pattern.getD (k + 1) default then
      bmMismatch text pattern (j - 1) k
    else some (k + 1)

/-- Outer scan loop of `boyer_moore` (lines 54-66 of `src/worker/app.py`).
`i` is the text index of the alignment's right end; on a full match the
alignment advances by the whole pattern length `ps.length + 1`
(non-overlapping), on a mismatch at pattern index `k` it advances by
`max(1, k - last.get(text[i], -1))`.  The pattern is passed as head `p` and
tail `ps` so that it is non-empty by construction, as guaranteed by the
`m == 0` early return of the source. -/
def bmLoop (text : List Char) (p : Char) (ps : List Char) (i hits : Nat) : Nat :=
  if i < text.length then
    match bmMismatch text (p :: ps) i ps.length with
    | none => bmLoop text p ps (i + (ps.length + 1)) (hits + 1)
    | some k =>
      bmLoop text p ps
        (i + max 1 (((k : Int) - lastOcc (p :: ps) (text.getD i default)).toNat)) hits
  else hits
termination_by text.length - i
decreasing_by
  · omega
  · have h1 : 1 ≤ max 1 (((k : Int) - lastOcc (p :: ps) (text.getD i default)).toNat) :=
      Nat.le_max_left _ _
    omega

/-- `boyer_moore` from `src/worker/app.py` (lines 47-67): simplified
Boyer-Moore, bad-character rule only, counting non-overlapping matches. -/
def boyer_moore (text pattern : List Char) : Nat :=
  match pattern with
  | [] => 0
  | p :: ps => bmLoop text p ps ps.length 0

/-- Failure-function fallback loop used both when building the LPS table and
when scanning (`while length and c != pattern[length]: length = lps[length-1]`).
The loop strictly decreases `length` (every stored LPS value is below its
index), so calling it with fuel equal to the starting `length` computes the
exact fixpoint of the Python `while`. -/
def lpsFall (pattern : List Char) (lps : List Nat) (c : Char) : Nat → Nat → Nat
  | 0, length => length
  | fuel + 1, length =>
    if length ≠ 0 ∧ c ≠ pattern.getD length default then
      lpsFall pattern lps c fuel (lps.getD (length - 1) 0)
    else length

/-- One iteration of the LPS construction loop of `kmp` (lines 78-83 of
`src/worker/app.py`), at pattern index `i`; the state is the pair
`(lps array, current length)`. -/
def lpsStep (pattern : List Char) (st : List Nat × Nat) (i : Nat) : List Nat × Nat :=
  let len := lpsFall pattern st.1 (pattern.getD i default) st.2 st.2
  if pattern.getD i default = pattern.getD len default then
    (st.1.set i (len + 1), len + 1)
  else (st.1, len)

/-- The LPS ("longest proper prefix which is also a suffix") construction of
`kmp`: `lps = [0] * m` then a loop over `i in range(1, m)`. -/
def lpsBuild (pattern : List Char) : List Nat × Nat :=
  (List.range' 1 (pattern.length - 1)).foldl (lpsStep pattern)
    (List.replicate pattern.length 0, 0)

def lpsArray (pattern : List Char) : List Nat := (lpsBuild pattern).1

/-- Text scan loop of `kmp` (lines 86-94 of `src/worker/app.py`): one pass
over the text, maintaining the matched-prefix length `j`; on a full match the
hit counter increments and `j` falls back to `lps[j - 1]`. -/
def kmpLoop (pattern : List Char) (lps : List Nat) : List Char → Nat → Nat → Nat
  | [], _, hits => hits
  | c :: rest, j, hits =>
    let j1 := lpsFall pattern lps c j j
    if c = pattern.getD j1 default then
      if j1 + 1 = pattern.length then
        kmpLoop pattern lps rest (lps.getD (j1 + 1 - 1) 0) (hits + 1)
      else kmpLoop pattern lps rest (j1 + 1) hits
    else kmpLoop pattern lps rest j1 hits

/-- `kmp` from `src/worker/app.py` (lines 70-95). -/
def kmp (text pattern : List Char) : Nat :=
  if pattern = [] then 0
  else kmpLoop pattern (lpsArray pattern) text 0 0

/-- Reference definition, from the spec's words (§4.1 contract and glossary):
the number of non-overlapping occurrences of `pattern` in `text` — the scan
moves left to right, each match consumes its whole span before the search
resumes, and an empty pattern yields 0. -/
def specCount (pattern : List Char) : List Char → Nat
  | [] => 0
  | c :: rest =>
    if h : pattern ≠ [] ∧ (c :: rest).take pattern.length = pattern then
      1 + specCount pattern ((c :: rest).drop pattern.length)
    else
      specCount pattern rest
termination_by t => t.length
decreasing_by
  · have hp : 0 < pattern.length := List.length_pos.mpr h.1
    simp only [List.length_drop, List.length_cons]
    omega
  · simp

/-- A `HitRecord`: one `{"file": .., "count": ..}` entry of a worker response. -/
structure Hit where
  file : String
  count : Nat
deriving DecidableEq, Repr

/-- Python slice `l[i::n]` (start `i` already dropped): the head, then every
`n`-th element. -/
def takeEvery (n : Nat) : List String → List String
  | [] => []
  | x :: xs => x :: takeEvery n (xs.drop (n - 1))
termination_by l => l.length
decreasing_by simp only [List.length_drop, List.length_cons]; omega

/-- The `batch > 0` branch of `slice_corpus`:
`[corpus[i : i + batch] for i in range(0, len(corpus), batch)]`.
A step of 0 raises `ValueError` in Python and is unreachable (the branch is
guarded by `batch > 0`); the `0` case here is a dead arm. -/
def chunksOf : Nat → List String → List (List String)
  | _, [] => []
  | 0, _ :: _ => []
  | b + 1, x :: xs => (x :: xs).take (b + 1) :: chunksOf (b + 1) (xs.drop b)
termination_by _ l => l.length
decreasing_by simp only [List.length_drop, List.length_cons]; omega

/-- `slice_corpus` from `src/coordinator/app.py` (lines 69-74). -/
def slice_corpus (batch : Nat) (corpus : List String) (n_workers : Nat) :
    List (List String) :=
  if 0 < batch then chunksOf batch corpus
  else (List.range n_workers).map (fun i => takeEvery n_workers (corpus.drop i))

/-- Python `dict` accumulation
`grouped[item["file"]] = grouped.get(item["file"], 0) + item["count"]`
on an association list in insertion order. -/
def insertAdd : List (String × Nat) → String → Nat → List (String × Nat)
  | [], f, c => [(f, c)]
  | (g, d) :: rest, f, c =>
    if g = f then (g, d + c) :: rest else (g, d) :: insertAdd rest f c

/-- The `grouped` dictionary of the coordinator's `search` (lines 123-125). -/
def groupHits (hs : List Hit) : List (String × Nat) :=
  hs.foldl (fun acc h => insertAdd acc h.file h.count) []

/-- The sort key `lambda x: (-x[1], x[0])` of line 131, as a `≤` test:
higher count first, file identifier ascending on ties. -/
def hitLE (a b : String × Nat) : Bool :=
  decide (b.2 < a.2 ∨ (a.2 = b.2 ∧ a.1 ≤ b.1))

/-- The aggregation tail of the coordinator's `search` (lines 122-132):
group the collected hits by file, sum the grand total over the grouped
dictionary, and sort by descending count with the file as tie-break.
Returns the sorted hit list and `total_hits`. -/
def aggregate (hs : List Hit) : List Hit × Nat :=
  let grouped := groupHits hs
  (((grouped.mergeSort hitLE).map (fun fc => Hit.mk fc.1 fc.2)),
    (grouped.map (fun fc => fc.2)).sum)

/-- `count_in_file` from `src/worker/app.py` (lines 134-140): the file system
is modelled as a partial map from paths to contents; an unreadable file
(`None`) yields 0 via the `except` clause.  The selected algorithm
`SEARCH_FN` is a parameter `fn`. -/
def count_in_file (fn : List Char → List Char → Nat)
    (fs : String → Option (List Char)) (path : String) (pattern : List Char) : Nat :=
  match fs path with
  | some content => fn (content.map Char.toLower) pattern
  | none => 0

/-- The worker's `batch_search` handler (lines 143-163 of
`src/worker/app.py`): `400` when the lower-cased query or the file list is
empty, otherwise maps `count_in_file` over the files, emits hits only for
strictly positive counts and totals all counts. -/
def batch_search (fn : List Char → List Char → Nat)
    (fs : String → Option (List Char)) (q : List Char) (files : List String) :
    Except Nat (List Hit × Nat) :=
  if q.map Char.toLower = [] ∨ files = [] then .error 400
  else
    .ok (((files.zip (files.map
            (fun p => count_in_file fn fs p (q.map Char.toLower)))).filter
          (fun pc => decide (0 < pc.2))).map (fun pc => Hit.mk pc.1 pc.2),
      (files.map (fun p => count_in_file fn fs p (q.map Char.toLower))).sum)

/-- `call_worker` (lines 77-85 of `src/coordinator/app.py`) as seen from the
dispatch loop: a worker-side non-2xx status becomes a raised exception
(`raise_for_status`), carried here as an error message. -/
def call_worker (resp : Except Nat (List Hit × Nat)) : Except String (List Hit × Nat) :=
  match resp with
  | .ok v => .ok v
  | .error code => .error ("HTTP " ++ toString code)

/-- One step of the fan-in loop of `search` (lines 118-120): extend
`aggregated_hits` with a completed call's hits, unless a call already
failed. -/
def gatherStep (acc : Except String (List Hit))
    (r : Except String (List Hit × Nat)) : Except String (List Hit) :=
  match acc, r with
  | .error e, _ => .error e
  | .ok hs, .ok v => .ok (hs ++ v.1)
  | .ok _, .error e => .error e

/-- The fan-in loop of `search` (lines 117-120): the first failed call
raises (`fut.result()`), aborting the whole collection. -/
def gather (results : List (Except String (List Hit × Nat))) :
    Except String (List Hit) :=
  results.foldl gatherStep (.ok [])

/-- An HTTP response of the coordinator's `/search` endpoint. -/
inductive Resp where
  | ok (hits : List Hit) (total : Nat)
  | err (status : Nat) (msg : String)
deriving DecidableEq, Repr

/-- The coordinator's `search` handler (lines 94-139 of
`src/coordinator/app.py`), with the outcome of each dispatched worker call
given by `respond` on the chunk's file list: `400` for an empty (stripped)
query, `500` for an empty corpus, short-circuit on no chunks, `500` with the
exception's message if any call fails, otherwise the aggregated `200` body. -/
def coordSearch (respond : List String → Except String (List Hit × Nat))
    (q : List Char) (corpus : List String) (batch n_workers : Nat) : Resp :=
  if q = [] then .err 400 "faltou parametro q"
  else if corpus = [] then .err 500 "corpus vazio"
  else if slice_corpus batch corpus n_workers = [] then .ok [] 0
  else
    match gather ((slice_corpus batch corpus n_workers).map respond) with
    | .error e => .err 500 e
    | .ok hs => .ok (aggregate hs).1 (aggregate hs).2

/-! ## Claim C1 -/

unseal bmLoop in
/-- C1: the claim states that `brute_force`, `boyer_moore` and `kmp` return
the same occurrence count for every text and non-empty pattern, and that on
`text = "abababab"`, `pattern = "abab"` each returns 2.  The code violates
this: `brute_force` and `kmp` count the overlapping occurrences (3 on this
input) while `boyer_moore` counts the non-overlapping ones (2). -/
theorem c1_matchers_disagree :
    brute_force "abababab".data "abab".data = 3 ∧
    kmp "abababab".data "abab".data = 3 ∧
    boyer_moore "abababab".data "abab".data = 2 := by decide

/-! ## Claim C2 -/

unseal bmLoop specCount in
/-- C2: the claim states that each of the three matchers returns the
non-overlapping occurrence count.  On `text = "aaa"`, `pattern = "aa"` the
non-overlapping count is 1 (and `boyer_moore` returns it), but `brute_force`
and `kmp` return 2, counting the two overlapping occurrences. -/
theorem c2_overlap_counting :
    specCount "aa".data "aaa".data = 1 ∧
    boyer_moore "aaa".data "aa".data = 1 ∧
    brute_force "aaa".data "aa".data = 2 ∧
    kmp "aaa".data "aa".data = 2 := by decide

/-! ## Claim C9 -/

unseal String.ltb List.merge List.mergeSort in
/-- C9 counterexample: on the spec's concrete aggregator input, the code does
not produce the claimed value `([(c,5),(a,5),(b,1)], total 9)` — the claimed
ordering violates the ascending-identifier tie-break and the claimed total
mis-adds the counts. -/
theorem c9_aggregate_example_counterexample :
    aggregate [Hit.mk "a" 3, Hit.mk "b" 1, Hit.mk "a" 2, Hit.mk "c" 5] ≠
      ([Hit.mk "c" 5, Hit.mk "a" 5, Hit.mk "b" 1], 9) := by decide

unseal String.ltb List.merge List.mergeSort in
/-- C9 amended: on partial results `[{a:3},{b:1}]` and `[{a:2},{c:5}]` the
merged result is `{a:5, b:1, c:5}` ordered `[(a,5),(c,5),(b,1)]` (descending
count, ascending file identifier on ties) with `total_hits = 11`. -/
theorem c9_aggregate_example :
    aggregate [Hit.mk "a" 3, Hit.mk "b" 1, Hit.mk "a" 2, Hit.mk "c" 5] =
      ([Hit.mk "a" 5, Hit.mk "c" 5, Hit.mk "b" 1], 11) := by decide

/-! ## Claim C8

The LPS table stores, at every index, a value not exceeding that index; the
fallback loop therefore only decreases the matched-prefix length, and the
scan cannot reach a full match on a text shorter than the pattern. -/

theorem lpsFall_le (pattern : List Char) (L : List Nat) (c : Char)
    (hL : ∀ x : Nat, L.getD x 0 ≤ x) :
    ∀ fuel length, lpsFall pattern L c fuel length ≤ length := by
  intro fuel
  induction fuel with
  | zero => intro length; exact Nat.le_refl _
  | succ fuel ih =>
    intro length
    rw [lpsFall]
    by_cases h : length ≠ 0 ∧ c ≠ pattern.getD length default
    · rw [if_pos h]
      calc lpsFall pattern L c fuel (L.getD (length - 1) 0)
          ≤ L.getD (length - 1) 0 := ih _
        _ ≤ length - 1 := hL _
        _ ≤ length := Nat.sub_le _ _
    · rw [if_neg h]

theorem getD_replicate_zero (n x : Nat) : (List.replicate n (0 : Nat)).getD x 0 = 0 := by
  rw [List.getD_eq_getElem?_getD]
  rcases Nat.lt_or_ge x n with h | h
  · simp [List.getElem?_replicate, Nat.lt_irrefl, h]
  · rw [List.getElem?_eq_none (by simpa using h)]
    rfl

theorem getD_set_le (L : List Nat) (i v x : Nat) (hL : ∀ y : Nat, L.getD y 0 ≤ y)
    (hv : v ≤ i) : (L.set i v).getD x 0 ≤ x := by
  rw [List.getD_eq_getElem?_getD, List.getElem?_set]
  by_cases hix : i = x
  · subst hix
    by_cases hlen : i < L.length
    · simp [hlen, hv]
    · simp [hlen]
  · rw [if_neg hix, ← List.getD_eq_getElem?_getD]
    exact hL x

theorem lpsFoldl_inv (pattern : List Char) :
    ∀ (cnt start : Nat) (L : List Nat) (len : Nat),
      (∀ x : Nat, L.getD x 0 ≤ x) → len + 1 ≤ start →
      (∀ x : Nat,
        ((List.range' start cnt).foldl (lpsStep pattern) (L, len)).1.getD x 0 ≤ x) ∧
      ((List.range' start cnt).foldl (lpsStep pattern) (L, len)).2 + 1 ≤ start + cnt := by
  intro cnt
  induction cnt with
  | zero =>
    intro start L len hL hlen
    exact ⟨hL, by simpa using hlen⟩
  | succ cnt ih =>
    intro start L len hL hlen
    rw [List.range'_succ, List.foldl_cons]
    have hfall : lpsFall pattern L (pattern.getD start default) len len ≤ len :=
      lpsFall_le pattern L _ hL len len
    have hstep :
        (∀ x : Nat, (lpsStep pattern (L, len) start).1.getD x 0 ≤ x) ∧
        (lpsStep pattern (L, len) start).2 + 1 ≤ start + 1 := by
      simp only [lpsStep]
      by_cases hc :
          pattern.getD start default =
            pattern.getD (lpsFall pattern L (pattern.getD start default) len len) default
      · rw [if_pos hc]
        refine ⟨fun x => getD_set_le L start _ x hL (by omega), by omega⟩
      · rw [if_neg hc]
        exact ⟨hL, by omega⟩
    have h2 := ih (start + 1) (lpsStep pattern (L, len) start).1
      (lpsStep pattern (L, len) start).2 hstep.1 hstep.2
    rw [Prod.mk.eta] at h2
    exact ⟨h2.1, by omega⟩

theorem lpsArray_le (pattern : List Char) : ∀ x : Nat, (lpsArray pattern).getD x 0 ≤ x := by
  intro x
  have := lpsFoldl_inv pattern (pattern.length - 1) 1 (List.replicate pattern.length 0) 0
    (fun y => by rw [getD_replicate_zero]; exact Nat.zero_le y) (by omega)
  exact this.1 x

theorem kmpLoop_eq_of_short (pattern : List Char) (L : List Nat)
    (hL : ∀ x : Nat, L.getD x 0 ≤ x) :
    ∀ (text : List Char) (j hits : Nat), j + text.length < pattern.length →
      kmpLoop pattern L text j hits = hits := by
  intro text
  induction text with
  | nil => intro j hits _; rfl
  | cons c rest ih =>
    intro j hits h
    have hj1 : lpsFall pattern L c j j ≤ j := lpsFall_le pattern L c hL j j
    simp only [kmpLoop]
    by_cases h1 : c = pattern.getD (lpsFall pattern L c j j) default
    · rw [if_pos h1]
      by_cases h2 : lpsFall pattern L c j j + 1 = pattern.length
      · exfalso
        simp only [List.length_cons] at h
        omega
      · rw [if_neg h2]
        apply ih
        simp only [List.length_cons] at h
        omega
    · rw [if_neg h1]
      apply ih
      simp only [List.length_cons] at h
      omega

/-- C8: each of `brute_force`, `boyer_moore` and `kmp` returns 0 whenever the
pattern is empty or longer than the text; in particular, 0 for every text
with an empty pattern and 0 for an empty text with a non-empty pattern (the
latter being the `text.length < pattern.length` case at length 0). -/
theorem c8_degenerate_inputs_zero (text pattern : List Char) :
    (pattern = [] →
      brute_force text pattern = 0 ∧ boyer_moore text pattern = 0 ∧
        kmp text pattern = 0) ∧
    (text.length < pattern.length →
      brute_force text pattern = 0 ∧ boyer_moore text pattern = 0 ∧
        kmp text pattern = 0) := by
  constructor
  · intro hp
    subst hp
    refine ⟨by simp [brute_force], rfl, by simp [kmp]⟩
  · intro hlen
    have hp : pattern ≠ [] := by
      intro hp; rw [hp] at hlen; simp at hlen
    refine ⟨?_, ?_, ?_⟩
    · have h0 : text.length + 1 - pattern.length = 0 := by omega
      simp [brute_force, hp, h0]
    · rcases pattern with _ | ⟨p, ps⟩
      · exact absurd rfl hp
      · show bmLoop text p ps ps.length 0 = 0
        rw [bmLoop]
        rw [if_neg (by simp only [List.length_cons] at hlen; omega)]
    · rw [kmp, if_neg hp]
      exact kmpLoop_eq_of_short pattern (lpsArray pattern) (lpsArray_le pattern)
        text 0 0 (by omega)

/-- Witness for C8 at concrete inputs: empty pattern on `"ab"`, and pattern
`"abc"` on the shorter text `"ab"`. -/
theorem c8_degenerate_inputs_zero_witness :
    (brute_force "ab".data [] = 0 ∧ boyer_moore "ab".data [] = 0 ∧
      kmp "ab".data [] = 0) ∧
    (brute_force "ab".data "abc".data = 0 ∧ boyer_moore "ab".data "abc".data = 0 ∧
      kmp "ab".data "abc".data = 0) :=
  ⟨(c8_degenerate_inputs_zero "ab".data []).1 rfl,
   (c8_degenerate_inputs_zero "ab".data "abc".data).2 (by decide)⟩

/-! ## Claim C7 -/

theorem zip_counts_filter_eq (cnt : String → Nat) :
    ∀ files : List String,
      ((files.zip (files.map cnt)).filter (fun pc => decide (0 < pc.2))).map
          (fun pc => Hit.mk pc.1 pc.2) =
        (files.filter (fun p => decide (0 < cnt p))).map
          (fun p => Hit.mk p (cnt p)) := by
  intro files
  induction files with
  | nil => rfl
  | cons x xs ih =>
    simp only [List.map_cons, List.zip_cons_cons, List.filter_cons]
    by_cases hx : 0 < cnt x
    · simp [hx, ih]
    · simp [hx, ih]

/-- C7: in the worker's scan, a file the file system cannot provide is
counted as 0 and never fails the batch: for any file system `fs` (however
many unreadable files it has) and non-empty query and file list, the handler
answers `200` with the hits being exactly the files of strictly positive
count (zero-count files omitted) and `total_hits` the sum of the counts over
all requested files, unreadable ones contributing 0. -/
theorem c7_batch_search_resilient (fn : List Char → List Char → Nat)
    (fs : String → Option (List Char)) (q : List Char) (files : List String)
    (hq : q ≠ []) (hf : files ≠ []) :
    (∀ p, fs p = none → count_in_file fn fs p (q.map Char.toLower) = 0) ∧
    batch_search fn fs q files =
      .ok ((files.filter
              (fun p => decide (0 < count_in_file fn fs p (q.map Char.toLower)))).map
            (fun p => Hit.mk p (count_in_file fn fs p (q.map Char.toLower))),
        (files.map (fun p => count_in_file fn fs p (q.map Char.toLower))).sum) := by
  constructor
  · intro p hp
    simp [count_in_file, hp]
  · have hq' : q.map Char.toLower ≠ [] := by
      intro h
      exact hq (List.map_eq_nil_iff.mp h)
    rw [batch_search, if_neg (by simp [hq', hf])]
    rw [zip_counts_filter_eq]

/-- Witness for C7: a single requested file on a file system where no file
is readable still yields a `200` with no hits and total 0. -/
theorem c7_batch_search_resilient_witness :
    batch_search brute_force (fun _ => none) "a".data ["f"] =
      .ok (((["f"] : List String).filter
              (fun p => decide (0 < count_in_file brute_force (fun _ => none) p
                ("a".data.map Char.toLower)))).map
            (fun p => Hit.mk p (count_in_file brute_force (fun _ => none) p
              ("a".data.map Char.toLower))),
        ((["f"] : List String).map
          (fun p => count_in_file brute_force (fun _ => none) p
            ("a".data.map Char.toLower))).sum) :=
  (c7_batch_search_resilient brute_force (fun _ => none) "a".data ["f"]
    (by decide) (by decide)).2

/-! ## Claim C6 -/

theorem gatherStep_ok (acc : Except String (List Hit))
    (r : Except String (List Hit × Nat)) (a : List Hit)
    (h : gatherStep acc r = .ok a) :
    (∃ b, acc = .ok b) ∧ ∃ v, r = .ok v := by
  rcases acc with e | b
  · simp [gatherStep] at h
  · rcases r with e' | v
    · simp [gatherStep] at h
    · exact ⟨⟨b, rfl⟩, ⟨v, rfl⟩⟩

theorem gather_foldl_ok :
    ∀ (results : List (Except String (List Hit × Nat)))
      (acc : Except String (List Hit)) (hs : List Hit),
      results.foldl gatherStep acc = .ok hs →
      (∃ a, acc = .ok a) ∧ ∀ r ∈ results, ∃ v, r = .ok v := by
  intro results
  induction results with
  | nil =>
    intro acc hs h
    exact ⟨⟨hs, h⟩, by simp⟩
  | cons r rs ih =>
    intro acc hs h
    rw [List.foldl_cons] at h
    obtain ⟨⟨a, ha⟩, hall⟩ := ih _ hs h
    obtain ⟨hb, hv⟩ := gatherStep_ok acc r a ha
    refine ⟨hb, ?_⟩
    intro r' hr'
    rcases List.mem_cons.mp hr' with h1 | h1
    · rw [h1]; exact hv
    · exact hall r' h1

theorem gather_ok_of_all (results : List (Except String (List Hit × Nat)))
    (hs : List Hit) (h : gather results = .ok hs) :
    ∀ r ∈ results, ∃ v, r = .ok v :=
  (gather_foldl_ok results (.ok []) hs h).2

theorem gather_error_of_exists (results : List (Except String (List Hit × Nat)))
    (h : ∃ r ∈ results, ∃ e, r = .error e) :
    ∃ e, gather results = .error e := by
  rcases hg : gather results with e | hs
  · exact ⟨e, rfl⟩
  · obtain ⟨r, hr, e, he⟩ := h
    obtain ⟨v, hv⟩ := gather_ok_of_all results hs hg r hr
    rw [hv] at he
    exact absurd he (by simp)

theorem coordSearch_error_of_failed
    (respond : List String → Except String (List Hit × Nat))
    (q : List Char) (corpus : List String) (batch n_workers : Nat)
    (hq : q ≠ []) (hc : corpus ≠ [])
    (h : ∃ ch ∈ slice_corpus batch corpus n_workers, ∃ e, respond ch = .error e) :
    ∃ msg, coordSearch respond q corpus batch n_workers = .err 500 msg := by
  have hchunks : slice_corpus batch corpus n_workers ≠ [] := by
    obtain ⟨ch, hch, _⟩ := h
    exact fun hnil => by rw [hnil] at hch; simp at hch
  have herr : ∃ e,
      gather ((slice_corpus batch corpus n_workers).map respond) = .error e := by
    apply gather_error_of_exists
    obtain ⟨ch, hch, e, he⟩ := h
    exact ⟨respond ch, List.mem_map_of_mem respond hch, e, he⟩
  obtain ⟨e, he⟩ := herr
  refine ⟨e, ?_⟩
  rw [coordSearch, if_neg hq, if_neg hc, if_neg hchunks, he]

theorem coordSearch_ok_all_succeeded
    (respond : List String → Except String (List Hit × Nat))
    (q : List Char) (corpus : List String) (batch n_workers : Nat)
    (hits : List Hit) (total : Nat)
    (hok : coordSearch respond q corpus batch n_workers = .ok hits total) :
    ∀ ch ∈ slice_corpus batch corpus n_workers, ∃ v, respond ch = .ok v := by
  intro ch hch
  have hchunks : slice_corpus batch corpus n_workers ≠ [] := by
    intro hnil; rw [hnil] at hch; simp at hch
  rw [coordSearch] at hok
  by_cases hq : q = []
  · rw [if_pos hq] at hok; simp at hok
  · rw [if_neg hq] at hok
    by_cases hc : corpus = []
    · rw [if_pos hc] at hok; simp at hok
    · rw [if_neg hc, if_neg hchunks] at hok
      rcases hg : gather ((slice_corpus batch corpus n_workers).map respond)
        with e | hs
      · rw [hg] at hok; simp at hok
      · exact gather_ok_of_all _ hs hg (respond ch)
          (List.mem_map_of_mem respond hch)

/-- C6: if any dispatched worker call fails, the coordinator's `/search`
response is a 500 error (never a partial hit list built from the surviving
calls), and a 200 response happens only when every dispatched call
succeeded. -/
theorem c6_fail_fast
    (respond : List String → Except String (List Hit × Nat))
    (q : List Char) (corpus : List String) (batch n_workers : Nat)
    (hq : q ≠ []) (hc : corpus ≠ []) :
    ((∃ ch ∈ slice_corpus batch corpus n_workers, ∃ e, respond ch = .error e) →
      ∃ msg, coordSearch respond q corpus batch n_workers = .err 500 msg) ∧
    (∀ hits total, coordSearch respond q corpus batch n_workers = .ok hits total →
      ∀ ch ∈ slice_corpus batch corpus n_workers, ∃ v, respond ch = .ok v) :=
  ⟨coordSearch_error_of_failed respond q corpus batch n_workers hq hc,
   fun hits total hok =>
     coordSearch_ok_all_succeeded respond q corpus batch n_workers hits total hok⟩

/-- Witness for C6: one worker call that times out (modelled as an error
outcome) turns the whole query into a 500. -/
theorem c6_fail_fast_witness :
    ∃ msg, coordSearch (fun _ => .error "timeout") "a".data ["f"] 0 1 = .err 500 msg :=
  (c6_fail_fast (fun _ => .error "timeout") "a".data ["f"] 0 1 (by decide)
      (by decide)).1
    ⟨["f"], by simp [slice_corpus, takeEvery], "timeout", rfl⟩

/-! ## Claim C10 -/

/-- C10: with the balanced split (`fixed_batch_size = 0`) and more workers
than corpus files, at least one partition is empty; the coordinator still
dispatches it, the worker answers 400 on an empty file list, and by the
fail-fast rule the whole query ends in a 500 error even though every corpus
file is scannable (for an arbitrary file system `fs`). -/
theorem c10_overpartition_fails (fn : List Char → List Char → Nat)
    (fs : String → Option (List Char)) (q : List Char) (corpus : List String)
    (n : Nat) (hq : q ≠ []) (hc : corpus ≠ []) (hn : corpus.length < n) :
    (∃ ch ∈ slice_corpus 0 corpus n, ch = []) ∧
    batch_search fn fs q [] = .error 400 ∧
    ∃ msg,
      coordSearch (fun files => call_worker (batch_search fn fs q files))
        q corpus 0 n = .err 500 msg := by
  have hmem : ([] : List String) ∈ slice_corpus 0 corpus n := by
    rw [slice_corpus, if_neg (by omega)]
    exact List.mem_map.mpr
      ⟨corpus.length, List.mem_range.mpr hn, by simp [List.drop_length, takeEvery]⟩
  have hworker : batch_search fn fs q [] = .error 400 := by
    rw [batch_search, if_pos (Or.inr rfl)]
  refine ⟨⟨[], hmem, rfl⟩, hworker, ?_⟩
  apply coordSearch_error_of_failed _ _ _ _ _ hq hc
  exact ⟨[], hmem, "HTTP 400", by rw [hworker]; rfl⟩

/-- Witness for C10: a one-file corpus split for two workers. -/
theorem c10_overpartition_fails_witness :
    (∃ ch ∈ slice_corpus 0 ["f"] 2, ch = []) ∧
    batch_search brute_force (fun _ => some "x".data) "a".data [] = .error 400 ∧
    ∃ msg,
      coordSearch
        (fun files =>
          call_worker (batch_search brute_force (fun _ => some "x".data) "a".data files))
        "a".data ["f"] 0 2 = .err 500 msg :=
  c10_overpartition_fails brute_force (fun _ => some "x".data) "a".data ["f"] 2
    (by decide) (by decide) (by decide)

/-! ## Claim C5 -/

theorem getD_drop_add {α : Type} (l : List α) (s d : Nat) (x : α) :
    (l.drop s).getD d x = l.getD (s + d) x := by
  rw [List.getD_eq_getElem?_getD, List.getD_eq_getElem?_getD, List.getElem?_drop]

theorem chunksOf_flatten (b : Nat) : ∀ l : List String, (chunksOf (b + 1) l).flatten = l
  | [] => by rw [chunksOf]; rfl
  | x :: xs => by
    rw [chunksOf, List.flatten_cons, chunksOf_flatten b (xs.drop b),
      ← List.drop_succ_cons (a := x) (l := xs) (n := b)]
    exact List.take_append_drop (b + 1) (x :: xs)
termination_by l => l.length
decreasing_by simp only [List.length_drop, List.length_cons]; omega

theorem chunksOf_length (b : Nat) :
    ∀ l : List String, (chunksOf (b + 1) l).length = (l.length + b) / (b + 1)
  | [] => by
    rw [chunksOf]
    rw [List.length_nil, List.length_nil, Nat.zero_add, Nat.div_eq_of_lt (by omega)]
  | x :: xs => by
    rw [chunksOf, List.length_cons, chunksOf_length b (xs.drop b), List.length_drop]
    have harith : (x :: xs).length + b = xs.length + (b + 1) := by
      rw [List.length_cons]; omega
    rw [harith, Nat.add_div_right _ (Nat.succ_pos b)]
    rcases Nat.lt_or_ge xs.length b with hlt | hge
    · have h1 : xs.length - b = 0 := by omega
      rw [h1, Nat.zero_add, Nat.div_eq_of_lt (by omega),
        Nat.div_eq_of_lt (by omega)]
    · rw [Nat.sub_add_cancel hge]
termination_by l => l.length
decreasing_by simp only [List.length_drop, List.length_cons]; omega

theorem chunksOf_mem_length (b : Nat) :
    ∀ l : List String, ∀ c ∈ chunksOf (b + 1) l, 0 < c.length ∧ c.length ≤ b + 1
  | [] => by intro c hc; rw [chunksOf] at hc; simp at hc
  | x :: xs => by
    intro c hc
    rw [chunksOf] at hc
    rcases List.mem_cons.mp hc with h1 | h1
    · subst h1
      refine ⟨by simp [List.length_take], by simp [List.length_take]⟩
    · exact chunksOf_mem_length b (xs.drop b) c h1
termination_by l => l.length
decreasing_by simp only [List.length_drop, List.length_cons]; omega

theorem chunksOf_ne_nil (b : Nat) (l : List String) (hl : l ≠ []) :
    chunksOf (b + 1) l ≠ [] := by
  rcases l with _ | ⟨x, xs⟩
  · exact absurd rfl hl
  · rw [chunksOf]; simp

theorem chunksOf_getD_length (b : Nat) :
    ∀ l : List String, ∀ i : Nat, i + 1 < (chunksOf (b + 1) l).length →
      ((chunksOf (b + 1) l).getD i []).length = b + 1
  | [] => by intro i hi; rw [chunksOf] at hi; simp at hi
  | x :: xs => by
    intro i hi
    rw [chunksOf] at hi ⊢
    rcases i with _ | i
    · have hrest : chunksOf (b + 1) (xs.drop b) ≠ [] := by
        intro hnil
        rw [hnil] at hi
        simp at hi
      have hdrop : xs.drop b ≠ [] := by
        intro hnil
        rw [hnil, chunksOf] at hrest
        exact hrest rfl
      have hlen : b + 1 ≤ xs.length + 1 := by
        rcases Nat.lt_or_ge xs.length b with h | h
        · rw [List.drop_eq_nil_of_le (by omega)] at hdrop
          exact absurd rfl hdrop
        · omega
      simp only [List.getD_cons_zero, List.length_take, List.length_cons]
      omega
    · rw [List.getD_cons_succ]
      apply chunksOf_getD_length b (xs.drop b)
      rw [List.length_cons] at hi
      omega
termination_by l => l.length
decreasing_by simp only [List.length_drop, List.length_cons]; omega

theorem takeEvery_length (n : Nat) (hn : 1 ≤ n) :
    ∀ l : List String, (takeEvery n l).length = (l.length + n - 1) / n
  | [] => by
    rw [takeEvery]
    simp only [List.length_nil, Nat.zero_add]
    rw [Nat.div_eq_of_lt (by omega)]
  | x :: xs => by
    rw [takeEvery, List.length_cons, takeEvery_length n hn (xs.drop (n - 1)),
      List.length_drop]
    have harith : (x :: xs).length + n - 1 = xs.length + n := by
      rw [List.length_cons]; omega
    rw [harith, Nat.add_div_right _ (by omega)]
    rcases Nat.lt_or_ge xs.length (n - 1) with hlt | hge
    · have h1 : xs.length - (n - 1) = 0 := by omega
      rw [h1, Nat.zero_add, Nat.div_eq_of_lt (by omega),
        Nat.div_eq_of_lt (by omega)]
    · have h1 : xs.length - (n - 1) + n - 1 = xs.length := by omega
      rw [h1]
termination_by l => l.length
decreasing_by simp only [List.length_drop, List.length_cons]; omega

theorem takeEvery_getD (n : Nat) (hn : 1 ≤ n) :
    ∀ (l : List String) (q : Nat) (d : String),
      (takeEvery n l).getD q d = l.getD (q * n) d
  | [] => by intro q d; simp [takeEvery]
  | x :: xs => by
    intro q d
    rw [takeEvery]
    rcases q with _ | q
    · rw [Nat.zero_mul]; simp
    · rw [List.getD_cons_succ, takeEvery_getD n hn (xs.drop (n - 1)) q d,
        getD_drop_add]
      have harith : (q + 1) * n = (n - 1 + q * n) + 1 := by
        have h2 : (q + 1) * n = q * n + n := by ring
        omega
      rw [harith, List.getD_cons_succ]
termination_by l => l.length
decreasing_by simp only [List.length_drop, List.length_cons]; omega

theorem roundRobin_flatten_perm (n : Nat) (hn : 1 ≤ n) :
    ∀ l : List String,
      (((List.range n).map (fun i => takeEvery n (l.drop i))).flatten).Perm l := by
  intro l
  induction l with
  | nil =>
    have hmap : (List.range n).map (fun i => takeEvery n (([] : List String).drop i)) =
        (List.range n).map (fun _ => ([] : List String)) := by
      apply List.map_congr_left
      intro i _
      rw [List.drop_nil, takeEvery]
    rw [hmap]
    have : ((List.range n).map (fun _ => ([] : List String))).flatten = [] := by
      rw [List.flatten_eq_nil_iff]
      intro m hm
      rcases List.mem_map.mp hm with ⟨i, _, hi⟩
      exact hi.symm
    rw [this]
  | cons x rest ih =>
    obtain ⟨n1, rfl⟩ : ∃ n1, n = n1 + 1 := ⟨n - 1, by omega⟩
    rw [List.range_succ_eq_map, List.map_cons, List.map_map, List.flatten_cons]
    have hhead : takeEvery (n1 + 1) ((x :: rest).drop 0) =
        x :: takeEvery (n1 + 1) (rest.drop n1) := by
      rw [List.drop_zero, takeEvery]
      simp
    have htail :
        (List.range n1).map
            ((fun i => takeEvery (n1 + 1) ((x :: rest).drop i)) ∘ Nat.succ) =
          (List.range n1).map (fun i => takeEvery (n1 + 1) (rest.drop i)) := by
      apply List.map_congr_left
      intro i _
      simp [Function.comp, List.drop_succ_cons]
    rw [hhead, htail]
    have hsplit :
        ((List.range (n1 + 1)).map (fun i => takeEvery (n1 + 1) (rest.drop i))).flatten =
          ((List.range n1).map (fun i => takeEvery (n1 + 1) (rest.drop i))).flatten ++
            takeEvery (n1 + 1) (rest.drop n1) := by
      rw [List.range_succ, List.map_append, List.flatten_append]
      simp
    rw [hsplit] at ih
    rw [List.cons_append]
    exact List.Perm.trans (List.Perm.cons x List.perm_append_comm)
      (List.Perm.cons x ih)

/-- C5: partitioning.  With a positive `fixed_batch_size` the corpus is cut
into `ceil(len/batch)` consecutive chunks in corpus order, all of the batch
size except a shorter final one, independently of the worker count.  With
batch 0 and at least one worker the split yields exactly `worker_count`
partitions, the file at corpus index `j` sits in partition `j % n` at offset
`j / n`, partition sizes differ by at most one, and the partitions together
contain every corpus file exactly once (their concatenation is a permutation
of the corpus). -/
theorem c5_slice_corpus (corpus : List String) (batch n : Nat) :
    (0 < batch →
      (slice_corpus batch corpus n).length = (corpus.length + (batch - 1)) / batch ∧
      (slice_corpus batch corpus n).flatten = corpus ∧
      (∀ i, i + 1 < (slice_corpus batch corpus n).length →
        ((slice_corpus batch corpus n).getD i []).length = batch) ∧
      (∀ c ∈ slice_corpus batch corpus n, 0 < c.length ∧ c.length ≤ batch) ∧
      (∀ n2, slice_corpus batch corpus n = slice_corpus batch corpus n2)) ∧
    (batch = 0 → 1 ≤ n →
      (slice_corpus batch corpus n).length = n ∧
      (∀ j, j < corpus.length →
        ((slice_corpus batch corpus n).getD (j % n) []).getD (j / n) "" =
          corpus.getD j "") ∧
      (∀ c1 ∈ slice_corpus batch corpus n, ∀ c2 ∈ slice_corpus batch corpus n,
        c1.length ≤ c2.length + 1) ∧
      ((slice_corpus batch corpus n).flatten).Perm corpus) := by
  constructor
  · intro hb
    obtain ⟨b, rfl⟩ : ∃ b, batch = b + 1 := ⟨batch - 1, by omega⟩
    have hsl : ∀ m : Nat, slice_corpus (b + 1) corpus m = chunksOf (b + 1) corpus :=
      fun m => by rw [slice_corpus, if_pos hb]
    refine ⟨?_, ?_, ?_, ?_, ?_⟩
    · rw [hsl n, chunksOf_length b corpus]; congr 1
    · rw [hsl n, chunksOf_flatten b corpus]
    · intro i hi
      rw [hsl n] at hi ⊢
      exact chunksOf_getD_length b corpus i hi
    · intro c hc
      rw [hsl n] at hc
      exact chunksOf_mem_length b corpus c hc
    · intro n2
      rw [hsl n, hsl n2]
  · intro hb hn
    subst hb
    have hsl : slice_corpus 0 corpus n =
        (List.range n).map (fun i => takeEvery n (corpus.drop i)) := by
      rw [slice_corpus, if_neg (by omega)]
    refine ⟨?_, ?_, ?_, ?_⟩
    · rw [hsl]; simp
    · intro j hj
      rw [hsl]
      have hmod : j % n < n := Nat.mod_lt j (by omega)
      have hpart : ((List.range n).map
            (fun i => takeEvery n (corpus.drop i))).getD (j % n) [] =
          takeEvery n (corpus.drop (j % n)) := by
        rw [List.getD_eq_getElem?_getD, List.getElem?_map,
          List.getElem?_range hmod]
        rfl
      rw [hpart, takeEvery_getD n hn (corpus.drop (j % n)) (j / n) "",
        getD_drop_add]
      congr 1
      have := Nat.mod_add_div j n
      calc j % n + j / n * n = j % n + n * (j / n) := by ring_nf
        _ = j := Nat.mod_add_div j n
    · intro c1 hc1 c2 hc2
      rw [hsl] at hc1 hc2
      obtain ⟨i1, hi1, rfl⟩ := List.mem_map.mp hc1
      obtain ⟨i2, hi2, rfl⟩ := List.mem_map.mp hc2
      rw [takeEvery_length n hn, takeEvery_length n hn,
        List.length_drop, List.length_drop]
      have hi2n : i2 < n := List.mem_range.mp hi2
      have hle : corpus.length - i1 + n - 1 ≤
          (corpus.length - i2 + n - 1) + n := by omega
      calc (corpus.length - i1 + n - 1) / n
          ≤ ((corpus.length - i2 + n - 1) + n) / n := Nat.div_le_div_right hle
        _ = (corpus.length - i2 + n - 1) / n + 1 := Nat.add_div_right _ (by omega)
    · rw [hsl]
      exact roundRobin_flatten_perm n hn corpus

/-- Witness for C5: the spec's own examples — a 7-file corpus split for 3
workers (3 balanced partitions covering the corpus exactly once), and a
5-file corpus with `fixed_batch_size = 2` ([2,2,1]-sized chunks in corpus
order, worker count irrelevant). -/
theorem c5_slice_corpus_witness :
    (slice_corpus 0 ["f1", "f2", "f3", "f4", "f5", "f6", "f7"] 3).length = 3 ∧
    ((slice_corpus 0 ["f1", "f2", "f3", "f4", "f5", "f6", "f7"] 3).flatten).Perm
      ["f1", "f2", "f3", "f4", "f5", "f6", "f7"] ∧
    (slice_corpus 2 ["g1", "g2", "g3", "g4", "g5"] 9).length = 3 ∧
    (slice_corpus 2 ["g1", "g2", "g3", "g4", "g5"] 9).flatten =
      ["g1", "g2", "g3", "g4", "g5"] :=
  ⟨((c5_slice_corpus ["f1", "f2", "f3", "f4", "f5", "f6", "f7"] 0 3).2 rfl
      (by omega)).1,
   ((c5_slice_corpus ["f1", "f2", "f3", "f4", "f5", "f6", "f7"] 0 3).2 rfl
      (by omega)).2.2.2,
   by
     have h := ((c5_slice_corpus ["g1", "g2", "g3", "g4", "g5"] 2 9).1 (by omega)).1
     rw [h]; decide,
   ((c5_slice_corpus ["g1", "g2", "g3", "g4", "g5"] 2 9).1 (by omega)).2.1⟩

/-! ## Claim C4 -/

/-- The total count a file contributes across all hit records (the reference
notion for "merge by file identifier, summing counts"). -/
def countOf (f : String) (hs : List Hit) : Nat :=
  ((hs.filter (fun h => decide (h.file = f))).map (fun h => h.count)).sum

/-- The analogue of `countOf` on the grouped association list. -/
def pairCountOf (g : String) (l : List (String × Nat)) : Nat :=
  ((l.filter (fun p => decide (p.1 = g))).map (fun p => p.2)).sum

theorem insertAdd_keys (acc : List (String × Nat)) (f : String) (c : Nat) :
    (insertAdd acc f c).map Prod.fst =
      if f ∈ acc.map Prod.fst then acc.map Prod.fst
      else acc.map Prod.fst ++ [f] := by
  induction acc with
  | nil => simp [insertAdd]
  | cons a rest ih =>
    rw [insertAdd]
    by_cases ha : a.1 = f
    · rcases a with ⟨g, d⟩
      simp only at ha
      subst ha
      simp
    · rcases a with ⟨g, d⟩
      simp only at ha
      rw [if_neg ha]
      simp only [List.map_cons, ih]
      by_cases hmem : f ∈ rest.map Prod.fst
      · rw [if_pos hmem, if_pos (by simp [hmem])]
      · rw [if_neg hmem, if_neg (by simp [hmem, Ne.symm ha]), List.cons_append]

theorem insertAdd_keys_nodup (acc : List (String × Nat)) (f : String) (c : Nat)
    (h : (acc.map Prod.fst).Nodup) : ((insertAdd acc f c).map Prod.fst).Nodup := by
  rw [insertAdd_keys]
  by_cases hmem : f ∈ acc.map Prod.fst
  · rw [if_pos hmem]; exact h
  · rw [if_neg hmem]
    simp [List.nodup_append, h, hmem]

theorem pairCountOf_cons (b : String) (d : Nat) (rest : List (String × Nat))
    (g : String) :
    pairCountOf g ((b, d) :: rest) =
      (if b = g then d else 0) + pairCountOf g rest := by
  rw [pairCountOf, List.filter_cons]
  by_cases h : b = g
  · rw [if_pos (by simpa using h), if_pos h]
    simp [pairCountOf]
  · rw [if_neg (by simpa using h), if_neg h]
    simp [pairCountOf]

theorem insertAdd_pairCountOf (f : String) (c : Nat) (g : String) :
    ∀ acc : List (String × Nat),
      pairCountOf g (insertAdd acc f c) =
        pairCountOf g acc + (if g = f then c else 0)
  | [] => by
    rw [insertAdd, pairCountOf_cons]
    by_cases h : g = f
    · rw [if_pos h.symm, if_pos h]
      simp [pairCountOf]
    · rw [if_neg (fun hh => h hh.symm), if_neg h]
      simp [pairCountOf]
  | (b, d) :: rest => by
    rw [insertAdd]
    by_cases hb : b = f
    · rw [if_pos hb, pairCountOf_cons, pairCountOf_cons]
      by_cases hg : b = g
      · have hgf : g = f := by rw [← hg, hb]
        rw [if_pos hg, if_pos hg, if_pos hgf]
        omega
      · rw [if_neg hg, if_neg hg, if_neg (fun hh => hg (hb.trans hh.symm))]
        omega
    · rw [if_neg hb, pairCountOf_cons, pairCountOf_cons,
        insertAdd_pairCountOf f c g rest]
      omega

theorem insertAdd_sum (f : String) (c : Nat) :
    ∀ acc : List (String × Nat),
      ((insertAdd acc f c).map (fun p => p.2)).sum =
        (acc.map (fun p => p.2)).sum + c := by
  intro acc
  induction acc with
  | nil => simp [insertAdd]
  | cons a rest ih =>
    rcases a with ⟨b, d⟩
    rw [insertAdd]
    by_cases hb : b = f
    · subst hb; simp; omega
    · rw [if_neg hb]
      simp [ih]
      omega

theorem insertAdd_mem_keys (acc : List (String × Nat)) (f : String) (c : Nat)
    (x : String) :
    x ∈ (insertAdd acc f c).map Prod.fst ↔ x ∈ acc.map Prod.fst ∨ x = f := by
  rw [insertAdd_keys]
  by_cases hmem : f ∈ acc.map Prod.fst
  · rw [if_pos hmem]
    constructor
    · exact Or.inl
    · rintro (h | rfl)
      · exact h
      · exact hmem
  · rw [if_neg hmem]
    simp

theorem groupFoldl_sum (hs : List Hit) :
    ∀ acc : List (String × Nat),
      ((hs.foldl (fun acc h => insertAdd acc h.file h.count) acc).map
          (fun p => p.2)).sum =
        (acc.map (fun p => p.2)).sum + (hs.map (fun h => h.count)).sum := by
  induction hs with
  | nil => intro acc; simp
  | cons h rest ih =>
    intro acc
    rw [List.foldl_cons, ih, insertAdd_sum]
    simp
    omega

theorem countOf_cons (g : String) (h : Hit) (rest : List Hit) :
    countOf g (h :: rest) =
      (if h.file = g then h.count else 0) + countOf g rest := by
  rw [countOf, List.filter_cons]
  by_cases hh : h.file = g
  · rw [if_pos (by simpa using hh), if_pos hh]
    simp [countOf]
  · rw [if_neg (by simpa using hh), if_neg hh]
    simp [countOf]

theorem groupFoldl_pairCountOf (g : String) (hs : List Hit) :
    ∀ acc : List (String × Nat),
      pairCountOf g (hs.foldl (fun acc h => insertAdd acc h.file h.count) acc) =
        pairCountOf g acc + countOf g hs := by
  induction hs with
  | nil => intro acc; simp [countOf]
  | cons h rest ih =>
    intro acc
    rw [List.foldl_cons, ih, insertAdd_pairCountOf, countOf_cons]
    by_cases hg : g = h.file
    · rw [if_pos hg, if_pos hg.symm]
      omega
    · rw [if_neg hg, if_neg (fun hh => hg hh.symm)]
      omega

theorem groupFoldl_keys_nodup (hs : List Hit) :
    ∀ acc : List (String × Nat), (acc.map Prod.fst).Nodup →
      ((hs.foldl (fun acc h => insertAdd acc h.file h.count) acc).map
        Prod.fst).Nodup := by
  induction hs with
  | nil => intro acc h; exact h
  | cons h rest ih =>
    intro acc hacc
    rw [List.foldl_cons]
    exact ih _ (insertAdd_keys_nodup acc h.file h.count hacc)

theorem groupFoldl_mem_keys (x : String) (hs : List Hit) :
    ∀ acc : List (String × Nat),
      x ∈ (hs.foldl (fun acc h => insertAdd acc h.file h.count) acc).map Prod.fst ↔
        x ∈ acc.map Prod.fst ∨ x ∈ hs.map (fun h => h.file) := by
  induction hs with
  | nil => intro acc; simp
  | cons h rest ih =>
    intro acc
    rw [List.foldl_cons, ih, insertAdd_mem_keys]
    simp
    tauto

theorem pairCountOf_eq_zero (f : String) :
    ∀ l : List (String × Nat), f ∉ l.map Prod.fst → pairCountOf f l = 0 := by
  intro l
  induction l with
  | nil => intro _; rfl
  | cons a rest ih =>
    intro hmem
    rcases a with ⟨b, d⟩
    have hb : b ≠ f := by
      intro h; exact hmem (by simp [h])
    rw [pairCountOf, List.filter_cons]
    rw [if_neg (by simpa using hb)]
    exact ih (fun h => hmem (by simp [h]))

theorem mem_pairCountOf (f : String) (c : Nat) :
    ∀ l : List (String × Nat), (l.map Prod.fst).Nodup → (f, c) ∈ l →
      pairCountOf f l = c
  | [] => by intro _ h; simp at h
  | (b, d) :: rest => by
    intro hnodup hmem
    rw [List.map_cons, List.nodup_cons] at hnodup
    rcases List.mem_cons.mp hmem with h1 | h1
    · cases h1
      rw [pairCountOf_cons, if_pos rfl,
        pairCountOf_eq_zero f rest (by simpa using hnodup.1)]
      omega
    · have hfmem : f ∈ rest.map Prod.fst := List.mem_map.mpr ⟨(f, c), h1, rfl⟩
      have hb : ¬(b = f) := fun hbf => hnodup.1 (by rw [hbf]; exact hfmem)
      rw [pairCountOf_cons, if_neg hb, mem_pairCountOf f c rest hnodup.2 h1]
      omega

theorem hitLE_trans (a b c : String × Nat)
    (h1 : hitLE a b = true) (h2 : hitLE b c = true) : hitLE a c = true := by
  rw [hitLE, decide_eq_true_iff] at h1 h2 ⊢
  rcases h1 with h1 | ⟨h1e, h1s⟩
  · rcases h2 with h2 | ⟨h2e, h2s⟩
    · exact Or.inl (by omega)
    · exact Or.inl (by omega)
  · rcases h2 with h2 | ⟨h2e, h2s⟩
    · exact Or.inl (by omega)
    · exact Or.inr ⟨by omega, le_trans h1s h2s⟩

theorem hitLE_total (a b : String × Nat) : (hitLE a b || hitLE b a) = true := by
  rw [hitLE, hitLE, Bool.or_eq_true, decide_eq_true_iff, decide_eq_true_iff]
  rcases Nat.lt_trichotomy a.2 b.2 with h | h | h
  · exact Or.inr (Or.inl h)
  · rcases le_total a.1 b.1 with hs | hs
    · exact Or.inl (Or.inr ⟨h, hs⟩)
    · exact Or.inr (Or.inr ⟨h.symm, hs⟩)
  · exact Or.inl (Or.inl h)

/-- C4: the coordinator's aggregation of the collected hit records merges by
file identifier summing counts (each output record carries the total count of
its file, output files are exactly the input files, each exactly once),
returns the merged list sorted strictly by descending count with ascending
file identifier as tie-break, and reports `total_hits` equal to the sum of
the merged counts, which equals the sum of all input counts. -/
theorem c4_aggregate_correct (hs : List Hit) :
    (aggregate hs).2 = (hs.map (fun h => h.count)).sum ∧
    ((aggregate hs).1.map (fun h => h.count)).sum = (aggregate hs).2 ∧
    List.Pairwise
      (fun a b : Hit => b.count < a.count ∨ (a.count = b.count ∧ a.file < b.file))
      (aggregate hs).1 ∧
    ((aggregate hs).1.map (fun h => h.file)).Nodup ∧
    (∀ h ∈ (aggregate hs).1,
      h.count = countOf h.file hs ∧ h.file ∈ hs.map (fun g => g.file)) ∧
    (∀ f ∈ hs.map (fun g => g.file), ∃ h ∈ (aggregate hs).1, h.file = f) := by
  have hperm : ((groupHits hs).mergeSort hitLE).Perm (groupHits hs) :=
    List.mergeSort_perm (groupHits hs) hitLE
  have hnodupG : ((groupHits hs).map Prod.fst).Nodup :=
    groupFoldl_keys_nodup hs [] (by simp)
  have hnodupS : (((groupHits hs).mergeSort hitLE).map Prod.fst).Nodup :=
    ((hperm.map Prod.fst).nodup_iff).mpr hnodupG
  have hGsum : ((groupHits hs).map (fun p => p.2)).sum =
      (hs.map (fun h => h.count)).sum := by
    have := groupFoldl_sum hs []
    simpa [groupHits] using this
  have hSsum : (((groupHits hs).mergeSort hitLE).map (fun p => p.2)).sum =
      ((groupHits hs).map (fun p => p.2)).sum :=
    (hperm.map (fun p => p.2)).sum_eq
  have hvalue : ∀ p ∈ groupHits hs, p.2 = countOf p.1 hs := by
    intro p hp
    have h1 : pairCountOf p.1 (groupHits hs) = p.2 :=
      mem_pairCountOf p.1 p.2 (groupHits hs) hnodupG (by simpa using hp)
    have h2 : pairCountOf p.1 (groupHits hs) = countOf p.1 hs := by
      have := groupFoldl_pairCountOf p.1 hs []
      simpa [groupHits, pairCountOf] using this
    rw [← h1, h2]
  have hkeys : ∀ x : String,
      x ∈ (groupHits hs).map Prod.fst ↔ x ∈ hs.map (fun h => h.file) := by
    intro x
    have := groupFoldl_mem_keys x hs []
    simpa [groupHits] using this
  refine ⟨?_, ?_, ?_, ?_, ?_, ?_⟩
  · show ((groupHits hs).map (fun p => p.2)).sum = _
    exact hGsum
  · show ((((groupHits hs).mergeSort hitLE).map
        (fun fc => Hit.mk fc.1 fc.2)).map (fun h => h.count)).sum = _
    rw [List.map_map]
    exact hSsum
  · have hsorted : List.Pairwise (fun a b => hitLE a b = true)
        ((groupHits hs).mergeSort hitLE) :=
      List.sorted_mergeSort hitLE_trans hitLE_total (groupHits hs)
    have hne : List.Pairwise (fun a b : String × Nat => a.1 ≠ b.1)
        ((groupHits hs).mergeSort hitLE) :=
      List.pairwise_map.mp hnodupS
    have hstrict : List.Pairwise
        (fun a b : String × Nat => b.2 < a.2 ∨ (a.2 = b.2 ∧ a.1 < b.1))
        ((groupHits hs).mergeSort hitLE) := by
      refine (hsorted.and hne).imp ?_
      intro a b hab
      obtain ⟨hle, hne'⟩ := hab
      rw [hitLE, decide_eq_true_iff] at hle
      rcases hle with h | ⟨he, hs'⟩
      · exact Or.inl h
      · exact Or.inr ⟨he, lt_of_le_of_ne hs' hne'⟩
    show List.Pairwise _ (((groupHits hs).mergeSort hitLE).map
      (fun fc => Hit.mk fc.1 fc.2))
    exact List.pairwise_map.mpr (hstrict.imp (fun h => h))
  · show ((((groupHits hs).mergeSort hitLE).map
        (fun fc => Hit.mk fc.1 fc.2)).map (fun h => h.file)).Nodup
    rw [List.map_map]
    exact hnodupS
  · intro h hmem
    obtain ⟨p, hp, rfl⟩ := List.mem_map.mp hmem
    have hpG : p ∈ groupHits hs := hperm.mem_iff.mp hp
    refine ⟨hvalue p hpG, ?_⟩
    rw [← hkeys]
    exact List.mem_map.mpr ⟨p, hpG, rfl⟩
  · intro f hf
    obtain ⟨p, hpG, hpf⟩ := List.mem_map.mp ((hkeys f).mpr hf)
    refine ⟨Hit.mk p.1 p.2, ?_, hpf⟩
    exact List.mem_map.mpr ⟨p, hperm.mem_iff.mpr hpG, rfl⟩

/-- Witness for C4: the grand-total invariant evaluated at a concrete record
list with a repeated file. -/
theorem c4_aggregate_correct_witness :
    (aggregate [Hit.mk "x" 2, Hit.mk "y" 7, Hit.mk "x" 4]).2 =
      ([Hit.mk "x" 2, Hit.mk "y" 7, Hit.mk "x" 4].map (fun h => h.count)).sum :=
  (c4_aggregate_correct [Hit.mk "x" 2, Hit.mk "y" 7, Hit.mk "x" 4]).1

/-! ## Claim C3

Correctness of the simplified Boyer-Moore: on a non-empty pattern it computes
exactly the greedy non-overlapping occurrence count.  The heart is the
bad-character skip-safety argument: a skip of `k - last(text[i])` can never
jump over an alignment that matches, because a matching alignment must put an
occurrence of `text[i]` under position `i`, and `last` bounds every
occurrence index from above. -/

theorem take_eq_iff_getD :
    ∀ (q t : List Char),
      (t.take q.length = q) ↔
        (q.length ≤ t.length ∧
          ∀ d, d < q.length → t.getD d default = q.getD d default)
  | [], t => by simp
  | a :: q', [] => by
    constructor
    · intro h; simp at h
    · rintro ⟨h1, _⟩; simp at h1
  | a :: q', b :: t' => by
    rw [List.length_cons, List.take_succ_cons]
    constructor
    · intro h
      injection h with h1 h2
      have ih := (take_eq_iff_getD q' t').mp h2
      refine ⟨by simp only [List.length_cons]; omega, ?_⟩
      intro d hd
      rcases d with _ | d
      · simpa using h1
      · rw [List.getD_cons_succ, List.getD_cons_succ]
        exact ih.2 d (by omega)
    · rintro ⟨hlen, hall⟩
      have hb : b = a := by simpa using hall 0 (by omega)
      have ih := (take_eq_iff_getD q' t').mpr
        ⟨by simp only [List.length_cons] at hlen; omega, fun d hd => by
          have := hall (d + 1) (by omega)
          rwa [List.getD_cons_succ, List.getD_cons_succ] at this⟩
      rw [hb, ih]

theorem drop_take_eq_iff (text pattern : List Char) (s : Nat) :
    ((text.drop s).take pattern.length = pattern) ↔
      (pattern.length ≤ text.length - s ∧
        ∀ d, d < pattern.length →
          text.getD (s + d) default = pattern.getD d default) := by
  rw [take_eq_iff_getD pattern (text.drop s), List.length_drop]
  constructor
  · rintro ⟨h1, h2⟩
    exact ⟨h1, fun d hd => by rw [← getD_drop_add]; exact h2 d hd⟩
  · rintro ⟨h1, h2⟩
    exact ⟨h1, fun d hd => by rw [getD_drop_add]; exact h2 d hd⟩

theorem specCount_of_short (pattern : List Char) :
    ∀ t : List Char, t.length < pattern.length → specCount pattern t = 0
  | [] => fun _ => by rw [specCount]
  | c :: rest => fun h => by
    rw [specCount]
    have hne : ¬(pattern ≠ [] ∧ (c :: rest).take pattern.length = pattern) := by
      rintro ⟨_, htake⟩
      have hlen := congrArg List.length htake
      rw [List.length_take, List.length_cons] at hlen
      rw [List.length_cons] at h
      omega
    rw [dif_neg hne]
    exact specCount_of_short pattern rest
      (by rw [List.length_cons] at h; omega)

theorem specCount_match_step (pattern : List Char) (hp : pattern ≠ [])
    (t : List Char) (hmatch : t.take pattern.length = pattern) :
    specCount pattern t = 1 + specCount pattern (t.drop pattern.length) := by
  rcases t with _ | ⟨c, rest⟩
  · rw [List.take_nil] at hmatch
    exact absurd hmatch.symm hp
  · rw [specCount, dif_pos ⟨hp, hmatch⟩]

theorem specCount_mismatch_step (pattern : List Char) (t : List Char)
    (hmis : t.take pattern.length ≠ pattern) :
    specCount pattern t = specCount pattern (t.drop 1) := by
  rcases t with _ | ⟨c, rest⟩
  · rfl
  · rw [specCount, dif_neg (by rintro ⟨_, hm⟩; exact hmis hm)]
    rw [List.drop_succ_cons, List.drop_zero]

theorem specCount_skip_range (pattern : List Char) (text : List Char) :
    ∀ (k s : Nat),
      (∀ u, s ≤ u → u < s + k → (text.drop u).take pattern.length ≠ pattern) →
      specCount pattern (text.drop s) = specCount pattern (text.drop (s + k))
  | 0, s => fun _ => by rw [Nat.add_zero]
  | k + 1, s => fun hno => by
    have h1 : specCount pattern (text.drop s) =
        specCount pattern (text.drop (s + 1)) := by
      have := specCount_mismatch_step pattern (text.drop s)
        (hno s le_rfl (by omega))
      rwa [List.drop_drop] at this
    rw [h1]
    have h2 := specCount_skip_range pattern text k (s + 1)
      (fun u hu1 hu2 => hno u (by omega) (by omega))
    rwa [show s + 1 + k = s + (k + 1) from by omega] at h2

theorem lastOccAux_ge (c : Char) :
    ∀ (xs : List Char) (idx : Nat) (acc : Int),
      lastOccAux c xs idx acc = acc ∨ (idx : Int) ≤ lastOccAux c xs idx acc
  | [], _, _ => Or.inl rfl
  | x :: xs, idx, acc => by
    rw [lastOccAux]
    rcases lastOccAux_ge c xs (idx + 1) (if x = c then (idx : Int) else acc)
      with h | h
    · rw [h]
      by_cases hx : x = c
      · rw [if_pos hx]
        exact Or.inr le_rfl
      · rw [if_neg hx]
        exact Or.inl rfl
    · refine Or.inr ?_
      omega

theorem lastOccAux_mem (c : Char) :
    ∀ (xs : List Char) (idx : Nat) (acc : Int) (d : Nat),
      d < xs.length → xs.getD d default = c →
      ((idx + d : Nat) : Int) ≤ lastOccAux c xs idx acc
  | [], _, _, d => by intro h _; simp at h
  | x :: xs, idx, acc, d => by
    intro hd hx
    rw [lastOccAux]
    rcases d with _ | d
    · have hxc : x = c := by simpa using hx
      rw [if_pos hxc]
      rcases lastOccAux_ge c xs (idx + 1) (idx : Int) with h | h
      · rw [h]; omega
      · omega
    · rw [List.getD_cons_succ] at hx
      have := lastOccAux_mem c xs (idx + 1) (if x = c then (idx : Int) else acc) d
        (by rw [List.length_cons] at hd; omega) hx
      omega

theorem lastOcc_ge (pattern : List Char) (c : Char) (d : Nat)
    (hd : d < pattern.length) (hc : pattern.getD d default = c) :
    (d : Int) ≤ lastOcc pattern c := by
  have := lastOccAux_mem c pattern 0 (-1) d hd hc
  rw [lastOcc]
  omega

theorem lastOcc_ge_neg_one (pattern : List Char) (c : Char) :
    (-1 : Int) ≤ lastOcc pattern c := by
  rw [lastOcc]
  rcases lastOccAux_ge c pattern 0 (-1) with h | h
  · rw [h]
  · omega

theorem bmMismatch_none_iff (text pattern : List Char) :
    ∀ (k j : Nat), k ≤ j →
      (bmMismatch text pattern j k = none ↔
        ∀ d, d ≤ k → text.getD (j - k + d) default = pattern.getD d default)
  | 0, j => fun _ => by
    rw [bmMismatch]
    by_cases h : text.getD j default = pattern.getD 0 default
    · rw [if_pos h]
      constructor
      · intro _ d hd
        have hd0 : d = 0 := by omega
        subst hd0
        rw [show j - 0 + 0 = j from by omega]
        exact h
      · intro _; rfl
    · rw [if_neg h]
      constructor
      · intro hc; exact absurd hc (by simp)
      · intro hall
        have := hall 0 le_rfl
        rw [show j - 0 + 0 = j from by omega] at this
        exact absurd this h
  | k + 1, j => fun hkj => by
    rw [bmMismatch]
    by_cases h : text.getD j default = pattern.getD (k + 1) default
    · rw [if_pos h]
      have ih := bmMismatch_none_iff text pattern k (j - 1) (by omega)
      constructor
      · intro hnone d hd
        rcases Nat.lt_or_ge d (k + 1) with hdlt | hdge
        · have := ih.mp hnone d (by omega)
          rwa [show j - 1 - k + d = j - (k + 1) + d from by omega] at this
        · have hd1 : d = k + 1 := by omega
          subst hd1
          rw [show j - (k + 1) + (k + 1) = j from by omega]
          exact h
      · intro hall
        apply ih.mpr
        intro d hd
        have := hall d (by omega)
        rwa [show j - (k + 1) + d = j - 1 - k + d from by omega] at this
    · rw [if_neg h]
      constructor
      · intro hc; exact absurd hc (by simp)
      · intro hall
        have := hall (k + 1) le_rfl
        rw [show j - (k + 1) + (k + 1) = j from by omega] at this
        exact absurd this h

theorem bmMismatch_some (text pattern : List Char) :
    ∀ (k j k' : Nat), k ≤ j → bmMismatch text pattern j k = some k' →
      k' ≤ k ∧ text.getD (j - k + k') default ≠ pattern.getD k' default
  | 0, j, k' => fun _ h => by
    rw [bmMismatch] at h
    by_cases hc : text.getD j default = pattern.getD 0 default
    · rw [if_pos hc] at h
      exact absurd h (by simp)
    · rw [if_neg hc] at h
      injection h with h
      subst h
      refine ⟨le_rfl, ?_⟩
      rwa [show j - 0 + 0 = j from by omega]
  | k + 1, j, k' => fun hkj h => by
    rw [bmMismatch] at h
    by_cases hc : text.getD j default = pattern.getD (k + 1) default
    · rw [if_pos hc] at h
      obtain ⟨h1, h2⟩ := bmMismatch_some text pattern k (j - 1) k' (by omega) h
      refine ⟨by omega, ?_⟩
      rwa [show j - 1 - k + k' = j - (k + 1) + k' from by omega] at h2
    · rw [if_neg hc] at h
      injection h with h
      subst h
      refine ⟨le_rfl, ?_⟩
      rwa [show j - (k + 1) + (k + 1) = j from by omega]

theorem bm_gap_no_match (text : List Char) (p : Char) (ps : List Char)
    (i k : Nat) (hps : ps.length ≤ i) (hi : i < text.length)
    (hk_le : k ≤ ps.length)
    (hk_ne : text.getD (i - ps.length + k) default ≠ (p :: ps).getD k default) :
    ∀ u, i - ps.length ≤ u →
      u < i - ps.length +
        max 1 (((k : Int) - lastOcc (p :: ps) (text.getD i default)).toNat) →
      (text.drop u).take (p :: ps).length ≠ p :: ps := by
  intro u hu1 hu2 hmatch
  obtain ⟨hlen, hall⟩ := (drop_take_eq_iff text (p :: ps) u).mp hmatch
  rcases Nat.eq_or_lt_of_le hu1 with heq | hlt
  · have := hall k (by rw [List.length_cons]; omega)
    rw [← heq] at this
    exact hk_ne this
  · have hlast := lastOcc_ge_neg_one (p :: ps) (text.getD i default)
    have hmax_le :
        max 1 (((k : Int) - lastOcc (p :: ps) (text.getD i default)).toNat) ≤
          ps.length + 1 := by
      rcases max_choice 1
          (((k : Int) - lastOcc (p :: ps) (text.getD i default)).toNat) with hm | hm
      · rw [hm]; omega
      · rw [hm]; omega
    have hui : u ≤ i := by omega
    have hd : i - u < (p :: ps).length := by rw [List.length_cons]; omega
    have hocc : (p :: ps).getD (i - u) default = text.getD i default := by
      have := hall (i - u) hd
      rw [show u + (i - u) = i from by omega] at this
      exact this.symm
    have hge := lastOcc_ge (p :: ps) (text.getD i default) (i - u) hd hocc
    rcases max_choice 1
        (((k : Int) - lastOcc (p :: ps) (text.getD i default)).toNat) with hm | hm
    · rw [hm] at hu2; omega
    · rw [hm] at hu2; omega

theorem bmLoop_eq_specCount (text : List Char) (p : Char) (ps : List Char) :
    ∀ (fuel i hits : Nat), text.length - i ≤ fuel → ps.length ≤ i →
      bmLoop text p ps i hits =
        hits + specCount (p :: ps) (text.drop (i - ps.length))
  | 0, i, hits => fun hfuel hips => by
    rw [bmLoop, if_neg (by omega)]
    have hshort : (text.drop (i - ps.length)).length < (p :: ps).length := by
      rw [List.length_drop, List.length_cons]
      omega
    rw [specCount_of_short (p :: ps) _ hshort]
    omega
  | fuel + 1, i, hits => fun hfuel hips => by
    by_cases hi : i < text.length
    · rw [bmLoop, if_pos hi]
      rcases hmm : bmMismatch text (p :: ps) i ps.length with _ | k
      · simp only [hmm]
        have hallk :=
          (bmMismatch_none_iff text (p :: ps) ps.length i (by omega)).mp hmm
        have hmatch : (text.drop (i - ps.length)).take (p :: ps).length = p :: ps := by
          apply (drop_take_eq_iff text (p :: ps) (i - ps.length)).mpr
          refine ⟨by rw [List.length_cons]; omega, ?_⟩
          intro d hd
          exact hallk d (by rw [List.length_cons] at hd; omega)
        rw [bmLoop_eq_specCount text p ps fuel (i + (ps.length + 1)) (hits + 1)
          (by omega) (by omega)]
        rw [specCount_match_step (p :: ps) (by simp) (text.drop (i - ps.length)) hmatch]
        rw [List.drop_drop]
        rw [show i - ps.length + (p :: ps).length = i + 1 from by
          rw [List.length_cons]; omega]
        rw [show i + (ps.length + 1) - ps.length = i + 1 from by omega]
        omega
      · obtain ⟨hk_le, hk_ne⟩ :=
          bmMismatch_some text (p :: ps) ps.length i k (by omega) hmm
        simp only [hmm]
        set sk := max 1 (((k : Int) - lastOcc (p :: ps) (text.getD i default)).toNat)
          with hsk
        have hsk1 : 1 ≤ sk := Nat.le_max_left _ _
        rw [bmLoop_eq_specCount text p ps fuel (i + sk) hits (by omega) (by omega)]
        have hno : ∀ u, i - ps.length ≤ u → u < i - ps.length + sk →
            (text.drop u).take (p :: ps).length ≠ p :: ps := by
          rw [hsk]
          exact bm_gap_no_match text p ps i k hips hi hk_le hk_ne
        rw [specCount_skip_range (p :: ps) text sk (i - ps.length) hno,
          show i - ps.length + sk = i + sk - ps.length from by omega]
    · rw [bmLoop, if_neg hi]
      have hshort : (text.drop (i - ps.length)).length < (p :: ps).length := by
        rw [List.length_drop, List.length_cons]
        omega
      rw [specCount_of_short (p :: ps) _ hshort]
      omega

/-- C3: the simplified Boyer-Moore (bad-character rule only, advancing by
`max(1, k - last_occurrence(text[i]))` on a mismatch and by the pattern
length on a match) never skips past a valid non-overlapping match and never
double-counts one: on every text and non-empty pattern it returns exactly
the non-overlapping occurrence count. -/
theorem c3_boyer_moore_correct (text pattern : List Char) (hp : pattern ≠ []) :
    boyer_moore text pattern = specCount pattern text := by
  rcases pattern with _ | ⟨p, ps⟩
  · exact absurd rfl hp
  · show bmLoop text p ps ps.length 0 = specCount (p :: ps) text
    rw [bmLoop_eq_specCount text p ps text.length ps.length 0 (by omega) le_rfl]
    rw [show ps.length - ps.length = 0 from by omega, List.drop_zero]
    omega

unseal bmLoop specCount in
/-- Witness for C3: on the spec's example text the simplified Boyer-Moore
agrees with the non-overlapping count, whose value is 2. -/
theorem c3_boyer_moore_correct_witness :
    boyer_moore "abababab".data "abab".data =
      specCount "abab".data "abababab".data ∧
    boyer_moore "abababab".data "abab".data = 2 :=
  ⟨c3_boyer_moore_correct "abababab".data "abab".data (by decide), by decide⟩
